import Mathlib

/-!
# Verification of the expense normalization and shared-cost allocation pipeline

This file gives a shallow embedding, in Lean 4, of the core logic of the
expense-tracker frontend: the canonicalizer `convertBackendExpenseToFrontend`
(with its helpers `extractVendorName`, `capitalizeWords`, `categorizeExpense`),
the allocation aggregation `calculateParticipantTotals` and the percentage
display computation of `renderSharedExpenses`, the shared-space grouping loop
of `loadExpenses`, and the `handleReceiptParsed` state update of `App.tsx`.

Texts are modelled as `List Char` (or `String` for identifier-like fields),
JavaScript numbers as an inductive `JsNum` carrying an exact rational in the
finite case plus the non-finite IEEE values `NaN` and `±Infinity`, and code
that can throw as `Except`-valued functions.
-/

set_option autoImplicit false

namespace Raseed

/-! ## Character helpers (JS `\s`, `\w`, case conversion) -/

/-- JS regex `\s` restricted to the ASCII whitespace characters that occur in
this application's inputs. -/
def isWs (c : Char) : Bool :=
  c = ' ' || c = '\t' || c = '\n' || c = '\r' || c = '\x0b' || c = '\x0c'

/-- ASCII letter, the `A-Za-z` part of the vendor-capture character class. -/
def isAsciiLetter (c : Char) : Bool :=
  ('A' ≤ c && c ≤ 'Z') || ('a' ≤ c && c ≤ 'z')

/-- JS regex `\w`: ASCII letter, digit or underscore. -/
def isWordChar (c : Char) : Bool :=
  isAsciiLetter c || ('0' ≤ c && c ≤ '9') || c = '_'

/-- The character class `[A-Za-z\s]` of the vendor capture groups. -/
def isVendorChar (c : Char) : Bool :=
  isAsciiLetter c || isWs c

/-- Lower-case a list of characters (JS `toLowerCase` on the ASCII range). -/
def lowerL (s : List Char) : List Char :=
  s.map Char.toLower

/-- Case-insensitive equality of two characters, as under the `/i` regex flag. -/
def eqCI (a b : Char) : Bool :=
  a.toLower = b.toLower

/-- JS `String.prototype.trim`: drop whitespace from both ends. -/
def trimL (s : List Char) : List Char :=
  ((s.dropWhile isWs).reverse.dropWhile isWs).reverse

/-- `capitalizeWords` from the backend service: JS
`str.replace(/\b\w+/g, w => w.charAt(0).toUpperCase() + w.slice(1).toLowerCase())`.
Every maximal run of word characters gets its first character upper-cased and
the rest lower-cased; other characters pass through. The boolean argument
records whether the previous character was a word character. -/
def capWordsAux : Bool → List Char → List Char
  | _, [] => []
  | inWord, c :: rest =>
    if isWordChar c then
      (if inWord then c.toLower else c.toUpper) :: capWordsAux true rest
    else
      c :: capWordsAux false rest

/-- `capitalizeWords` applied to a whole string. -/
def capitalizeWords (s : List Char) : List Char :=
  capWordsAux false s

/-- JS `String.prototype.includes`: `containsSub needle hay` is true when
`needle` occurs contiguously inside `hay`. -/
def containsSub (needle : List Char) : List Char → Bool
  | [] => needle.isEmpty
  | hay@(_ :: rest) => needle.isPrefixOf hay || containsSub needle rest

/-! ## Line items and splits (backend shapes) -/

/-- One participant's share of a line item (`splits` entry of the backend
line-item payload). Amounts are modelled as exact rationals. -/
structure Split where
  participant : String
  amount : ℚ
  deriving DecidableEq, Repr

/-- A backend line item: `{ description, amount, category?, splits }`
(`allocation_text` is never read by the modelled code and is omitted). -/
structure BLineItem where
  description : List Char
  amount : ℚ
  category : Option String := none
  splits : List Split := []
  deriving DecidableEq, Repr

/-! ## Categorizer (`categorizeExpense`) -/

/-- The search string of `categorizeExpense`: all descriptions lower-cased and
joined with a single space (`map(...toLowerCase()).join(' ')`). -/
def categorySearchString (items : List BLineItem) : List Char :=
  List.intercalate [' '] (items.map (fun it => lowerL it.description))

/-- `categorizeExpense` from the backend service, transcribed from its
sequential `if` chain of `includes` tests. -/
def categorizeExpense (items : List BLineItem) : String :=
  let d := categorySearchString items
  if containsSub "food".toList d || containsSub "restaurant".toList d
      || containsSub "cafe".toList d then "Dining"
  else if containsSub "grocery".toList d || containsSub "supermarket".toList d then
    "Groceries"
  else if containsSub "fuel".toList d || containsSub "gas".toList d
      || containsSub "petrol".toList d then "Transport"
  else if containsSub "electronics".toList d || containsSub "phone".toList d
      || containsSub "laptop".toList d then "Electronics"
  else if containsSub "clothes".toList d || containsSub "shopping".toList d then
    "Shopping"
  else if containsSub "utility".toList d || containsSub "electricity".toList d
      || containsSub "water".toList d then "Utilities"
  else "Other"

/-- The ordered (category, keyword-set) table exactly as the specification
words it: Dining, Groceries, Transport, Electronics, Shopping, Utilities. -/
def specCategoryTable : List (String × List String) :=
  [("Dining", ["food", "restaurant", "cafe"]),
   ("Groceries", ["grocery", "supermarket"]),
   ("Transport", ["fuel", "gas", "petrol"]),
   ("Electronics", ["electronics", "phone", "laptop"]),
   ("Shopping", ["clothes", "shopping"]),
   ("Utilities", ["utility", "electricity", "water"])]

/-- Modelled from the spec's words: return the first category of the ordered
table any of whose keywords is a substring of the search string, else
`"Other"`. Compared against `categorizeExpense` for the refinement claim. -/
def specCategorize (items : List BLineItem) : String :=
  let d := categorySearchString items
  match specCategoryTable.find? (fun p => p.2.any (fun k => containsSub k.toList d)) with
  | some p => p.1
  | none => "Other"

/-! ## JavaScript numbers

A JS `number` is modelled as an exact rational in the finite case, plus the
non-finite IEEE values. Negative zero is identified with zero; float rounding
of finite arithmetic is idealised away (the amounts in play are small
decimals), but the finite/non-finite distinction — the one the claims are
about — is kept exact. -/

inductive JsNum where
  | fin (q : ℚ)
  | nan
  | posInf
  | negInf
  deriving DecidableEq, Repr

/-- Is the value a finite number (JS `Number.isFinite`)? -/
def JsNum.isFinite : JsNum → Bool
  | .fin _ => true
  | _ => false

/-- JS division, including the IEEE conventions `x/0 = ±Infinity` for
`x ≠ 0` and `0/0 = NaN`. -/
def jsDiv : JsNum → JsNum → JsNum
  | .fin a, .fin b =>
    if b = 0 then (if a = 0 then .nan else if a > 0 then .posInf else .negInf)
    else .fin (a / b)
  | .nan, _ => .nan
  | _, .nan => .nan
  | .fin _, .posInf => .fin 0
  | .fin _, .negInf => .fin 0
  | .posInf, .fin b => if b < 0 then .negInf else .posInf
  | .negInf, .fin b => if b < 0 then .posInf else .negInf
  | .posInf, .posInf => .nan
  | .posInf, .negInf => .nan
  | .negInf, .posInf => .nan
  | .negInf, .negInf => .nan

/-- JS multiplication on the same domain. -/
def jsMul : JsNum → JsNum → JsNum
  | .fin a, .fin b => .fin (a * b)
  | .nan, _ => .nan
  | _, .nan => .nan
  | .posInf, .fin b => if b = 0 then .nan else if b > 0 then .posInf else .negInf
  | .negInf, .fin b => if b = 0 then .nan else if b > 0 then .negInf else .posInf
  | .fin a, .posInf => if a = 0 then .nan else if a > 0 then .posInf else .negInf
  | .fin a, .negInf => if a = 0 then .nan else if a > 0 then .negInf else .posInf
  | .posInf, .posInf => .posInf
  | .posInf, .negInf => .negInf
  | .negInf, .posInf => .negInf
  | .negInf, .negInf => .posInf

/-- `toFixed(1)` on a finite value: sign-magnitude rounding to one decimal,
ties away from zero (the ES `toFixed` tie rule on the magnitude). -/
def ratToFixed1 (q : ℚ) : String :=
  let sign := if q < 0 then "-" else ""
  let n : ℤ := ⌊|q| * 10 + 1 / 2⌋
  sign ++ toString (n / 10) ++ "." ++ toString (n % 10)

/-- JS `Number.prototype.toFixed(1)`, extended to the non-finite values the
way JS renders them. -/
def jsToFixed1 : JsNum → String
  | .nan => "NaN"
  | .posInf => "Infinity"
  | .negInf => "-Infinity"
  | .fin q => ratToFixed1 q

/-! ## Vendor extraction (`extractVendorName`)

The four vendor regexes of `extractVendorName` are

  `/at\s+([A-Za-z\s]+?)(?:\s+with|\s+for|\s+yesterday|\s+today|\.|$)/i`
  `/went\s+to\s+([A-Za-z\s]+?)(?:…)/i`
  `/from\s+([A-Za-z\s]+?)(?:…)/i`
  `/bought.*?from\s+([A-Za-z\s]+?)(?:…)/i`

They share the shape: a trigger, one-or-more whitespace, a lazy capture over
`[A-Za-z\s]`, and a terminator alternation. The matcher below implements JS
backtracking semantics specialised to that shape: leftmost start position
first; the `\s+` before the capture greedy (maximal run first, then shorter);
the capture lazy (shortest span whose continuation matches a terminator);
`.*?` in the fourth pattern lazy (shortest gap first, never crossing a line
terminator). -/

/-- Match a literal case-insensitively at the head of the input; return the
remaining input on success. -/
def litCI : List Char → List Char → Option (List Char)
  | [], s => some s
  | _ :: _, [] => none
  | a :: as, c :: cs => if eqCI a c then litCI as cs else none

/-- Length of the leading whitespace run. -/
def wsRunLen : List Char → Nat
  | [] => 0
  | c :: cs => if isWs c then wsRunLen cs + 1 else 0

/-- `\s+lit`: one-or-more whitespace followed by a case-insensitive literal.
Since the literal starts with a non-whitespace character, the `\s+` must
consume exactly the whole leading run. -/
def wsThenLit (w : List Char) (s : List Char) : Bool :=
  let k := wsRunLen s
  decide (1 ≤ k) && (litCI w (s.drop k)).isSome

/-- The terminator alternation
`(?:\s+with|\s+for|\s+yesterday|\s+today|\.|$)`. Which alternative matches
does not affect the capture, so a boolean test suffices. -/
def termMatches (s : List Char) : Bool :=
  wsThenLit "with".toList s || wsThenLit "for".toList s
    || wsThenLit "yesterday".toList s || wsThenLit "today".toList s
    || (match s with | '.' :: _ => true | _ => false) || s.isEmpty

/-- Grow the lazy capture: if a terminator matches here the capture (built in
reverse in `acc`) is complete; otherwise extend it by one `[A-Za-z\s]`
character, failing if none is available. -/
def capGrow (acc : List Char) : List Char → Option (List Char)
  | [] => if termMatches [] then some acc.reverse else none
  | rest@(c :: rs) =>
    if termMatches rest then some acc.reverse
    else if isVendorChar c then capGrow (c :: acc) rs
    else none

/-- Start the capture: `+?` requires at least one class character before the
first terminator test. -/
def capFrom : List Char → Option (List Char)
  | [] => none
  | c :: rs => if isVendorChar c then capGrow [c] rs else none

/-- `\s+` before the capture, greedy with backtracking: try consuming `k`
whitespace characters for `k` from the maximal run length down to 1. -/
def wsCaptureAux (s : List Char) : Nat → Option (List Char)
  | 0 => none
  | k + 1 =>
    match capFrom (s.drop (k + 1)) with
    | some cap => some cap
    | none => wsCaptureAux s k

/-- `\s+([A-Za-z\s]+?)(?:terminator)`: whitespace then lazy capture. -/
def wsCapture (s : List Char) : Option (List Char) :=
  wsCaptureAux s (wsRunLen s)

/-- Attempt pattern 1, `/at\s+…/i`, anchored at the head of `s`. -/
def matchAt1 (s : List Char) : Option (List Char) :=
  (litCI "at".toList s).bind wsCapture

/-- Attempt pattern 2, `/went\s+to\s+…/i`, anchored at the head of `s`. The
inner `\s+` is followed by the literal `to`, so it deterministically consumes
the full whitespace run. -/
def matchAt2 (s : List Char) : Option (List Char) :=
  (litCI "went".toList s).bind fun r =>
    let k := wsRunLen r
    if 1 ≤ k then (litCI "to".toList (r.drop k)).bind wsCapture else none

/-- Attempt pattern 3, `/from\s+…/i`, anchored at the head of `s`. -/
def matchAt3 (s : List Char) : Option (List Char) :=
  (litCI "from".toList s).bind wsCapture

/-- The lazy gap `.*?from\s+…` of pattern 4: try the shortest gap first, and
never extend the gap across a line terminator (JS `.` excludes them). -/
def gapFrom : List Char → Option (List Char)
  | [] => none
  | rest@(c :: rs) =>
    match (litCI "from".toList rest).bind wsCapture with
    | some cap => some cap
    | none => if c = '\n' || c = '\r' then none else gapFrom rs

/-- Attempt pattern 4, `/bought.*?from\s+…/i`, anchored at the head of `s`. -/
def matchAt4 (s : List Char) : Option (List Char) :=
  (litCI "bought".toList s).bind fun r =>
    match (litCI "from".toList r).bind wsCapture with
    | some cap => some cap
    | none => gapFrom r

/-- `String.prototype.match` for one pattern: try each start position from
the left; the first position at which the anchored matcher succeeds yields
the (untrimmed) capture. -/
def scanMatch (m : List Char → Option (List Char)) : List Char → Option (List Char)
  | [] => m []
  | s@(_ :: rest) =>
    match m s with
    | some cap => some cap
    | none => scanMatch m rest

/-- The ordered vendor pattern list of `extractVendorName`. -/
def vendorMatchers : List (List Char → Option (List Char)) :=
  [matchAt1, matchAt2, matchAt3, matchAt4]

/-- The `for (const pattern of vendorPatterns)` loop: on a match, trim the
capture and return it word-capitalized if its length is strictly between 2
and 50; otherwise (no match, or out-of-range span) move to the next
pattern. -/
def tryVendorMatchers (text : List Char) :
    List (List Char → Option (List Char)) → Option (List Char)
  | [] => none
  | m :: ms =>
    match scanMatch m text with
    | some cap =>
      let vendor := trimL cap
      if 2 < vendor.length ∧ vendor.length < 50 then some (capitalizeWords vendor)
      else tryVendorMatchers text ms
    | none => tryVendorMatchers text ms

/-- `lineItems.reduce((max, item) => item.amount > max.amount ? item : max,
lineItems[0])`: the first line item of maximal amount. The fold runs over the
whole list with the head as initial value, exactly as `reduce` with an
explicit initial value does. -/
def primaryOf (first : BLineItem) (items : List BLineItem) : BLineItem :=
  items.foldl (fun mx it => if it.amount > mx.amount then it else mx) first

/-- `extractVendorName` from the backend service: ordered patterns, then the
highest-priced line item's description (if shorter than 30 characters), then
the literal `"Expense"`. -/
def extractVendorName (text : List Char) (lineItems : List BLineItem) : List Char :=
  match tryVendorMatchers text vendorMatchers with
  | some v => v
  | none =>
    match lineItems with
    | [] => "Expense".toList
    | first :: _ =>
      let primary := primaryOf first lineItems
      if primary.description.length < 30 then capitalizeWords primary.description
      else "Expense".toList

/-! ## Canonicalizer (`convertBackendExpenseToFrontend`) -/

/-- Lower-case a `String` (JS `toLowerCase` on the ASCII range). -/
def lowerS (s : String) : String :=
  String.mk (lowerL s.data)

/-- The raw parse result (`parsed_data`). Fields the modelled code never
reads (`expense_type`, `processing_time`, `status`) are omitted.
`clean_participants` and `is_shared` are `Option`s: `none` models the field
being absent (`undefined`), which is what the source's `||` and
`!== undefined` tests distinguish. `line_items` is an `Option` because the
missing-field failure mode of the canonicalizer is about exactly this
field. -/
structure ParsedData where
  participants : List String
  clean_participants : Option (List String) := none
  is_shared : Option Bool := none
  line_items : Option (List BLineItem)
  total_amount : JsNum
  deriving DecidableEq, Repr

/-- A stored backend expense wrapper: `{ id, original_text, parsed_data,
created_at }` (the fields the converter reads). -/
structure BackendExpense where
  id : ℤ
  original_text : List Char
  parsed_data : ParsedData
  created_at : String
  deriving DecidableEq, Repr

/-- A frontend line item as built by the converter. -/
structure FLineItem where
  description : List Char
  price : ℚ
  category : Option String := none
  deriving DecidableEq, Repr

/-- The `sharedDetails` record `{ members, paidBy }`. -/
structure SharedDetails where
  members : List String
  paidBy : String
  deriving DecidableEq, Repr

/-- The canonical frontend `Expense` record. `sharedSpaceId` is omitted: the
modelled code paths only ever set it to a freshly generated UUID, which the
claims treat as opaque. -/
structure Expense where
  id : String
  vendorName : List Char
  transactionDate : String
  totalAmount : JsNum
  category : String
  lineItems : List FLineItem
  type : String
  members : Option (List String) := none
  sharedDetails : Option SharedDetails := none
  deriving DecidableEq, Repr

/-- The runtime error raised when the converter dereferences a missing
`line_items` field (a JS `TypeError` from `undefined.map`/`undefined.length`). -/
inductive JsError where
  | typeError
  deriving DecidableEq, Repr

/-- `parsedData.clean_participants || parsedData.participants.filter(p => p &&
p.toLowerCase() !== 'me' && … !== 'myself' && … !== 'i')`. A present (even
empty) `clean_participants` array is truthy in JS and wins; only an absent
field falls back to the filter, which also drops empty strings (falsy `p`). -/
def cleanParticipantsOf (pd : ParsedData) : List String :=
  match pd.clean_participants with
  | some l => l
  | none =>
    pd.participants.filter fun p =>
      p ≠ "" ∧ lowerS p ≠ "me" ∧ lowerS p ≠ "myself" ∧ lowerS p ≠ "i"

/-- `parsedData.is_shared !== undefined ? parsedData.is_shared :
cleanParticipants.length > 0`. -/
def isSharedOf (pd : ParsedData) : Bool :=
  match pd.is_shared with
  | some b => b
  | none => 0 < (cleanParticipantsOf pd).length

/-- `created_at.split('T')[0]`: the prefix before the first `'T'`. -/
def dateBeforeT (s : String) : String :=
  String.mk (s.data.takeWhile fun c => c ≠ 'T')

/-- `convertBackendExpenseToFrontend` from the backend service. A missing
`line_items` makes the JS function throw (first dereference of `undefined`),
modelled as `Except.error`; every other input produces an `Expense`. -/
def convertBackendExpenseToFrontend (be : BackendExpense) : Except JsError Expense :=
  let pd := be.parsed_data
  let cleanParticipants := cleanParticipantsOf pd
  let isShared := isSharedOf pd
  match pd.line_items with
  | none => .error .typeError
  | some items =>
    let base : Expense :=
      { id := "backend-" ++ toString be.id
        vendorName := extractVendorName be.original_text items
        transactionDate := dateBeforeT be.created_at
        totalAmount := pd.total_amount
        category := categorizeExpense items
        lineItems := items.map fun it =>
          { description := it.description, price := it.amount
            category := it.category }
        type := if isShared then "shared" else "personal" }
    if isShared then
      .ok { base with
              members := some ("You" :: cleanParticipants)
              sharedDetails := some ⟨"You" :: cleanParticipants, "You"⟩ }
    else .ok base

/-! ## Allocation aggregation (`calculateParticipantTotals` of the dashboard) -/

/-- The alias applied per split: `split.participant === 'me' ? 'You' :
split.participant` — a case-sensitive comparison against the exact string
`'me'`. -/
def canonParticipant (p : String) : String :=
  if p = "me" then "You" else p

/-- `participantTotals[k] = (participantTotals[k] || 0) + v` on a JS object:
an existing key is updated in place (insertion order kept), a new key is
appended. The object is modelled as an association list in insertion
order. -/
def addSplitAmount (m : List (String × ℚ)) (k : String) (v : ℚ) : List (String × ℚ) :=
  if m.any (fun e => e.1 = k) then
    m.map fun e => if e.1 = k then (e.1, e.2 + v) else e
  else m ++ [(k, v)]

/-- The body of the inner `forEach` of `calculateParticipantTotals`:
accumulate one split's amount under its aliased participant key. -/
def totalsStep (acc : List (String × ℚ)) (s : Split) : List (String × ℚ) :=
  addSplitAmount acc (canonParticipant s.participant) s.amount

/-- `calculateParticipantTotals` from the dashboard component: for each line
item carrying splits (`item.splits && item.splits.length > 0`), accumulate
every split's amount under the aliased participant key. -/
def calculateParticipantTotals (items : List BLineItem) : List (String × ℚ) :=
  items.foldl
    (fun acc item =>
      if item.splits.length > 0 then item.splits.foldl totalsStep acc
      else acc)
    []

/-- The percentage the shared-expense renderer computes for one participant:
`((total / expense.totalAmount) * 100)` in JS arithmetic (no guard on a zero
total). -/
def derivePercentage (total expenseTotal : JsNum) : JsNum :=
  jsMul (jsDiv total expenseTotal) (.fin 100)

/-- The string the renderer actually displays:
`((total / expense.totalAmount) * 100).toFixed(1)`. -/
def percentageDisplay (total expenseTotal : JsNum) : String :=
  jsToFixed1 (derivePercentage total expenseTotal)

/-! ## Shared-space grouping (`loadExpenses` of `App.tsx`) -/

/-- A shared space. Its `id` (either the expense's `sharedSpaceId` or a fresh
UUID) is opaque to every claim — the spec itself says ids may be regenerated —
so it is not modelled. -/
structure SharedSpace where
  name : List Char
  members : List String
  deriving DecidableEq, Repr

/-- The member-set comparison of the grouping loop:
`space.members.length === expense.members.length &&
space.members.every(m => expense.members.includes(m))`. -/
def sameMembers (sp ms : List String) : Bool :=
  sp.length == ms.length && sp.all fun m => ms.contains m

/-- The body of the `forEach` of the shared-space generation loop of
`loadExpenses`: for a shared expense with a `members` field, push a new space
named `"<vendorName> Group"` unless some already-pushed space passes the
`sameMembers` test against it. -/
def groupStep (acc : List SharedSpace) (e : Expense) : List SharedSpace :=
  if e.type = "shared" then
    match e.members with
    | none => acc
    | some ms =>
      if acc.any (fun sp => sameMembers sp.members ms) then acc
      else acc ++ [⟨e.vendorName ++ " Group".toList, ms⟩]
  else acc

/-- The shared-space generation of `loadExpenses`: fold `groupStep` over the
expense collection starting from the empty space list. -/
def groupSharedSpaces (expenses : List Expense) : List SharedSpace :=
  expenses.foldl groupStep []

/-! ## Receipt handling (`handleReceiptParsed` of `App.tsx`) -/

/-- `handleReceiptParsed`: when the parsed expense has more than one member, a
brand-new space named `"<vendorName> Bill"` is appended to the current
shared-space list (no deduplication against existing member sets), the
expense is marked `shared`, and missing `sharedDetails` are filled in with
the submitter as payer; otherwise the expense is marked `personal` and the
space list is untouched. Returns the updated space list and the finalized
expense. -/
def handleReceiptParsed (spaces : List SharedSpace) (e : Expense) :
    List SharedSpace × Expense :=
  match e.members with
  | some ms =>
    if ms.length > 1 then
      let sp : SharedSpace := ⟨e.vendorName ++ " Bill".toList, ms⟩
      (spaces ++ [sp],
       { e with
           type := "shared"
           sharedDetails :=
             match e.sharedDetails with
             | some d => some d
             | none => some ⟨ms, "You"⟩ })
    else (spaces, { e with type := "personal" })
  | none => (spaces, { e with type := "personal" })

/-! ## Spec-side characterizations used by the claim statements -/

/-- One vendor pattern's contribution, in the spec's phrasing: the pattern's
first match, trimmed, accepted only when its length is strictly between 2 and
50, and then word-capitalized. `findSome?` over the ordered matcher list with
this function expresses "the first pattern whose captured span is in range
wins". -/
def vendorHit (text : List Char) (m : List Char → Option (List Char)) :
    Option (List Char) :=
  match scanMatch m text with
  | some cap =>
    let v := trimL cap
    if 2 < v.length ∧ v.length < 50 then some (capitalizeWords v) else none
  | none => none

/-- The family of member sets of a space list, compared order-independently:
a finset of finsets. -/
def memberSetFamily (sps : List SharedSpace) : Finset (Finset String) :=
  (sps.map fun sp => sp.members.toFinset).toFinset

/-- The member lists of the shared expenses of a collection, in input
order. -/
def sharedMemberLists (l : List Expense) : List (List String) :=
  l.filterMap fun e => if e.type = "shared" then e.members else none

/-! ## Theorems -/

/-- The sequential `if` chain of `categorizeExpense` computes exactly the
first-match lookup in the spec's ordered (category, keyword-set) table. -/
theorem categorize_eq_table (items : List BLineItem) :
    categorizeExpense items = specCategorize items := by
  simp only [categorizeExpense, specCategorize, specCategoryTable, List.find?,
    List.any_cons, List.any_nil, Bool.or_false, Bool.or_assoc]
  generalize (containsSub "food".toList (categorySearchString items)
    || (containsSub "restaurant".toList (categorySearchString items)
      || containsSub "cafe".toList (categorySearchString items))) = c1
  generalize (containsSub "grocery".toList (categorySearchString items)
    || containsSub "supermarket".toList (categorySearchString items)) = c2
  generalize (containsSub "fuel".toList (categorySearchString items)
    || (containsSub "gas".toList (categorySearchString items)
      || containsSub "petrol".toList (categorySearchString items))) = c3
  generalize (containsSub "electronics".toList (categorySearchString items)
    || (containsSub "phone".toList (categorySearchString items)
      || containsSub "laptop".toList (categorySearchString items))) = c4
  generalize (containsSub "clothes".toList (categorySearchString items)
    || containsSub "shopping".toList (categorySearchString items)) = c5
  generalize (containsSub "utility".toList (categorySearchString items)
    || (containsSub "electricity".toList (categorySearchString items)
      || containsSub "water".toList (categorySearchString items))) = c6
  revert c1 c2 c3 c4 c5 c6
  decide

/-- C7: `categorize` concatenates all line-item descriptions case-folded and
returns the first category of the fixed ordered table — Dining, Groceries,
Transport, Electronics, Shopping, Utilities — any of whose keywords is a
substring of the search string, `"Other"` when none matches; being a pure
function it is deterministic, and on descriptions `["grocery run", "snacks"]`
it returns `"Groceries"`. -/
theorem categorize_ordered_table_and_example :
    (∀ items, categorizeExpense items = specCategorize items) ∧
    categorizeExpense [⟨"grocery run".toList, 1, none, []⟩,
      ⟨"snacks".toList, 2, none, []⟩] = "Groceries" :=
  ⟨categorize_eq_table, by decide⟩

theorem any_key_iff (m : List (String × ℚ)) (k : String) :
    (m.any fun e => e.1 = k) = true ↔ k ∈ m.map Prod.fst := by
  simp only [List.any_eq_true, List.mem_map, decide_eq_true_eq]

theorem map_update_id (m : List (String × ℚ)) (k : String) (v : ℚ)
    (h : k ∉ m.map Prod.fst) :
    (m.map fun e => if e.1 = k then (e.1, e.2 + v) else e) = m := by
  induction m with
  | nil => rfl
  | cons e m ih =>
    simp only [List.map_cons, List.mem_cons, not_or] at h
    rcases h with ⟨h1, h2⟩
    rw [List.map_cons, if_neg (fun hk => h1 hk.symm), ih h2]

theorem addSplit_cons_ne (e : String × ℚ) (m : List (String × ℚ)) (k : String) (v : ℚ)
    (h : e.1 ≠ k) :
    addSplitAmount (e :: m) k v = e :: addSplitAmount m k v := by
  unfold addSplitAmount
  simp only [List.any_cons, decide_eq_false h, Bool.false_or]
  by_cases hm : (m.any fun x => x.1 = k) = true
  · simp [hm, if_neg h]
  · simp [hm, if_neg h]

theorem keys_addSplit (m : List (String × ℚ)) (k : String) (v : ℚ) :
    (addSplitAmount m k v).map Prod.fst =
      if (m.any fun e => e.1 = k) then m.map Prod.fst else m.map Prod.fst ++ [k] := by
  unfold addSplitAmount
  by_cases h : (m.any fun e => e.1 = k) = true
  · simp only [h, if_true, List.map_map]
    congr 1
    funext e
    by_cases he : e.1 = k <;> simp [he]
  · simp [h]

theorem mem_keys_addSplit (m : List (String × ℚ)) (k a : String) (v : ℚ) :
    a ∈ (addSplitAmount m k v).map Prod.fst ↔ a ∈ m.map Prod.fst ∨ a = k := by
  rw [keys_addSplit]
  by_cases h : (m.any fun e => e.1 = k) = true
  · rw [if_pos h]
    rw [any_key_iff] at h
    constructor
    · exact Or.inl
    · rintro (ha | rfl)
      · exact ha
      · exact h
  · simp [h]

theorem nodup_keys_addSplit (m : List (String × ℚ)) (k : String) (v : ℚ)
    (h : (m.map Prod.fst).Nodup) :
    ((addSplitAmount m k v).map Prod.fst).Nodup := by
  rw [keys_addSplit]
  by_cases hm : (m.any fun e => e.1 = k) = true
  · simpa [hm]
  · have hk : k ∉ m.map Prod.fst := by
      rw [← any_key_iff]
      simpa using hm
    simp [hm, List.nodup_append, h, hk]

theorem sum_addSplit (m : List (String × ℚ)) (k : String) (v : ℚ)
    (h : (m.map Prod.fst).Nodup) :
    ((addSplitAmount m k v).map Prod.snd).sum = (m.map Prod.snd).sum + v := by
  induction m with
  | nil => simp [addSplitAmount]
  | cons e m ih =>
    simp only [List.map_cons, List.nodup_cons] at h
    rcases h with ⟨he, hm⟩
    by_cases hk : e.1 = k
    · have hkm : k ∉ m.map Prod.fst := hk ▸ he
      have hany : ((e :: m).any fun x => x.1 = k) = true := by
        simp [List.any_cons, hk]
      unfold addSplitAmount
      simp only [hany, if_true, List.map_cons, if_pos hk]
      rw [map_update_id m k v hkm]
      simp [add_assoc, add_comm, add_left_comm]
    · rw [addSplit_cons_ne e m k v hk]
      simp only [List.map_cons, List.sum_cons, ih hm]
      ring

theorem foldl_totalsStep_nodup (ss : List Split) (acc : List (String × ℚ))
    (h : (acc.map Prod.fst).Nodup) :
    ((ss.foldl totalsStep acc).map Prod.fst).Nodup := by
  induction ss generalizing acc with
  | nil => exact h
  | cons s ss ih => exact ih _ (nodup_keys_addSplit _ _ _ h)

theorem foldl_totalsStep_sum (ss : List Split) (acc : List (String × ℚ))
    (h : (acc.map Prod.fst).Nodup) :
    ((ss.foldl totalsStep acc).map Prod.snd).sum
      = (acc.map Prod.snd).sum + (ss.map Split.amount).sum := by
  induction ss generalizing acc with
  | nil => simp
  | cons s ss ih =>
    rw [List.foldl_cons]
    have hnd : ((totalsStep acc s).map Prod.fst).Nodup := nodup_keys_addSplit _ _ _ h
    rw [ih _ hnd]
    simp only [totalsStep, sum_addSplit _ _ _ h, List.map_cons, List.sum_cons]
    ring

theorem mem_keys_foldl (ss : List Split) (acc : List (String × ℚ)) (a : String) :
    a ∈ ((ss.foldl totalsStep acc).map Prod.fst)
      ↔ a ∈ acc.map Prod.fst ∨ ∃ s ∈ ss, canonParticipant s.participant = a := by
  induction ss generalizing acc with
  | nil => simp
  | cons s ss ih =>
    rw [List.foldl_cons, ih]
    simp only [totalsStep, mem_keys_addSplit, List.mem_cons]
    constructor
    · rintro ((h | rfl) | ⟨s', hs', rfl⟩)
      · exact Or.inl h
      · exact Or.inr ⟨s, Or.inl rfl, rfl⟩
      · exact Or.inr ⟨s', Or.inr hs', rfl⟩
    · rintro (h | ⟨s', (rfl | hs'), rfl⟩)
      · exact Or.inl (Or.inl h)
      · exact Or.inl (Or.inr rfl)
      · exact Or.inr ⟨s', hs', rfl⟩

theorem calcPT_eq_flatten (items : List BLineItem) :
    calculateParticipantTotals items
      = ((items.map BLineItem.splits).flatten).foldl totalsStep [] := by
  suffices h : ∀ (l : List BLineItem) (acc : List (String × ℚ)),
      l.foldl (fun acc item =>
        if item.splits.length > 0 then item.splits.foldl totalsStep acc else acc) acc
        = ((l.map BLineItem.splits).flatten).foldl totalsStep acc by
    exact h items []
  intro l
  induction l with
  | nil => intro acc; rfl
  | cons it l ih =>
    intro acc
    rw [List.foldl_cons, List.map_cons, List.flatten_cons, List.foldl_append, ih]
    congr 1
    cases h : it.splits with
    | nil => simp
    | cons a b => simp

/-- C3: the values of `computeParticipantTotals` sum exactly to the sum of
all split amounts across all line items; a line item with no splits
contributes nothing (no equal-split fallback); a participant with no splits
anywhere is absent from the mapping; and on one line item with splits
`{me: 600}` and `{Priya: 400}` the result is `{You: 600, Priya: 400}`. -/
theorem participant_totals_conservation :
    (∀ items : List BLineItem,
      ((calculateParticipantTotals items).map Prod.snd).sum
        = (items.map fun it => ((it.splits.map Split.amount).sum)).sum) ∧
    (∀ (pre post : List BLineItem) (it : BLineItem), it.splits = [] →
      calculateParticipantTotals (pre ++ it :: post)
        = calculateParticipantTotals (pre ++ post)) ∧
    (∀ (items : List BLineItem) (a : String),
      a ∈ (calculateParticipantTotals items).map Prod.fst ↔
        ∃ item ∈ items, ∃ s ∈ item.splits, canonParticipant s.participant = a) ∧
    calculateParticipantTotals
        [⟨"dinner".toList, 1000, none, [⟨"me", 600⟩, ⟨"Priya", 400⟩]⟩]
      = [("You", 600), ("Priya", 400)] := by
  refine ⟨?_, ?_, ?_, by decide⟩
  · intro items
    rw [calcPT_eq_flatten, foldl_totalsStep_sum _ _ (by simp)]
    simp only [List.map_nil, List.sum_nil, zero_add, List.sum_flatten,
      List.map_flatten, List.map_map]
    rfl
  · intro pre post it hit
    rw [calcPT_eq_flatten, calcPT_eq_flatten]
    congr 1
    simp [hit]
  · intro items a
    rw [calcPT_eq_flatten, mem_keys_foldl]
    simp only [List.map_nil, List.not_mem_nil, false_or, List.mem_flatten,
      List.mem_map]
    constructor
    · rintro ⟨s, ⟨_, ⟨item, hitem, rfl⟩, hs⟩, rfl⟩
      exact ⟨item, hitem, s, hs, rfl⟩
    · rintro ⟨item, hitem, s, hs, rfl⟩
      exact ⟨s, ⟨item.splits, ⟨item, hitem, rfl⟩, hs⟩, rfl⟩

/-- Witness for `participant_totals_conservation`: the second conjunct applied
to the empty-splits line item between two empty lists. -/
theorem participant_totals_conservation_witness :
    calculateParticipantTotals ([] ++ ⟨"fee".toList, 30, none, []⟩ :: [])
      = calculateParticipantTotals ([] ++ []) :=
  participant_totals_conservation.2.1 [] [] ⟨"fee".toList, 30, none, []⟩ rfl


/-- C8 counterexample: the `"me"` alias of the aggregation is case-SENSITIVE.
`"Me"` equals `"me"` under case-insensitive comparison (first conjunct), yet
its amount is accumulated under the key `"Me"`, and no `"You"` key exists. -/
theorem alias_case_sensitivity_counterexample :
    lowerS "Me" = lowerS "me" ∧
    calculateParticipantTotals [⟨"dinner".toList, 1000, none, [⟨"Me", 5⟩]⟩]
      = [("Me", 5)] ∧
    "You" ∉ (calculateParticipantTotals
      [⟨"dinner".toList, 1000, none, [⟨"Me", 5⟩]⟩]).map Prod.fst := by
  refine ⟨by decide, by decide, by decide⟩

/-- C8 amended: the `"me"` → `"You"` alias fires only on an exact
case-sensitive match: every split is accumulated under the key
`if participant = "me" then "You" else participant`, so `"me"` maps to
`"You"` while any other casing (`"Me"`, `"ME"`) keys under itself. -/
theorem alias_exact_me_only :
    (∀ (items : List BLineItem) (a : String),
      a ∈ (calculateParticipantTotals items).map Prod.fst ↔
        ∃ item ∈ items, ∃ s ∈ item.splits,
          (if s.participant = "me" then "You" else s.participant) = a) ∧
    calculateParticipantTotals [⟨"d".toList, 1, none, [⟨"me", 600⟩]⟩]
      = [("You", 600)] ∧
    calculateParticipantTotals [⟨"d".toList, 1, none, [⟨"Me", 600⟩]⟩]
      = [("Me", 600)] ∧
    calculateParticipantTotals [⟨"d".toList, 1, none, [⟨"ME", 600⟩]⟩]
      = [("ME", 600)] := by
  refine ⟨?_, by decide, by decide, by decide⟩
  intro items a
  rw [calcPT_eq_flatten, mem_keys_foldl]
  simp only [canonParticipant, List.map_nil, List.not_mem_nil, false_or,
    List.mem_flatten, List.mem_map]
  constructor
  · rintro ⟨s, ⟨_, ⟨item, hitem, rfl⟩, hs⟩, rfl⟩
    exact ⟨item, hitem, s, hs, rfl⟩
  · rintro ⟨item, hitem, s, hs, rfl⟩
    exact ⟨s, ⟨item.splits, ⟨item, hitem, rfl⟩, hs⟩, rfl⟩

/-- C4 counterexample: at `expenseTotal = 0` the percentage computation of
the shared-expense renderer produces the IEEE artifact `Infinity` and the
rendered string is `"Infinity"` — not an undefined/not-applicable report. -/
theorem percentage_zero_total_artifact :
    derivePercentage (.fin 600) (.fin 0) = .posInf ∧
    percentageDisplay (.fin 600) (.fin 0) = "Infinity" ∧
    JsNum.isFinite (derivePercentage (.fin 600) (.fin 0)) = false := by
  refine ⟨by decide, by decide, by decide⟩

/-- C4 amended: for a non-zero finite `expenseTotal` the displayed percentage
is `participantTotal / expenseTotal × 100` rounded to one decimal; for
`expenseTotal = 0` the code performs no guard and produces the IEEE artifact
(`NaN` for a zero participant total, `±Infinity` otherwise) instead of a
not-applicable report. `derivePercentage(600, 1000) = 60.0`. -/
theorem derive_percentage_characterization :
    (∀ t e : ℚ, e ≠ 0 →
      derivePercentage (.fin t) (.fin e) = .fin (t / e * 100) ∧
      percentageDisplay (.fin t) (.fin e) = ratToFixed1 (t / e * 100)) ∧
    (∀ t : ℚ, derivePercentage (.fin t) (.fin 0)
      = if t = 0 then .nan else if 0 < t then .posInf else .negInf) ∧
    derivePercentage (.fin 600) (.fin 1000) = .fin 60 ∧
    percentageDisplay (.fin 600) (.fin 1000) = "60.0" := by
  have h60 : (600 : ℚ) / 1000 * 100 = 60 := by norm_num
  have hd : derivePercentage (.fin 600) (.fin 1000) = .fin 60 := by
    norm_num [derivePercentage, jsDiv, jsMul]
  have hfx : ratToFixed1 60 = "60.0" := by
    have hfl : (⌊|(60 : ℚ)| * 10 + 1 / 2⌋ : ℤ) = 600 := by
      rw [abs_of_nonneg (by norm_num : (0:ℚ) ≤ 60)]
      rw [Int.floor_eq_iff]
      norm_num
    rw [ratToFixed1, if_neg (by norm_num), hfl]
    rfl
  refine ⟨?_, ?_, hd, ?_⟩
  · intro t e he
    constructor
    · simp [derivePercentage, jsDiv, jsMul, he]
    · simp [percentageDisplay, derivePercentage, jsDiv, jsMul, he, jsToFixed1]
  · intro t
    by_cases h0 : t = 0
    · norm_num [derivePercentage, jsDiv, jsMul, h0]
    · by_cases hpos : 0 < t
      · norm_num [derivePercentage, jsDiv, jsMul, h0, hpos]
      · norm_num [derivePercentage, jsDiv, jsMul, h0, hpos]
  · rw [percentageDisplay, hd, jsToFixed1, hfx]

/-- Witness for `derive_percentage_characterization`: its first conjunct
applied at `t = 50`, `e = 200`. -/
theorem derive_percentage_characterization_witness :
    derivePercentage (.fin 50) (.fin 200) = .fin (50 / 200 * 100) ∧
    percentageDisplay (.fin 50) (.fin 200) = ratToFixed1 (50 / 200 * 100) :=
  derive_percentage_characterization.1 50 200 (by norm_num)

/-- C10: when a parsed receipt has more than one member,
`handleReceiptParsed` appends a brand-new `"<vendorName> Bill"` space to the
existing collection unconditionally — no check against existing member sets —
so applying it twice leaves two spaces with identical member lists in the
state. -/
theorem receipt_parsed_always_appends_space :
    (∀ (spaces : List SharedSpace) (e : Expense) (ms : List String),
      e.members = some ms → 1 < ms.length →
      (handleReceiptParsed spaces e).1
        = spaces ++ [⟨e.vendorName ++ " Bill".toList, ms⟩]) ∧
    (∀ (spaces : List SharedSpace) (e : Expense) (ms : List String),
      e.members = some ms → 1 < ms.length →
      (handleReceiptParsed (handleReceiptParsed spaces e).1 e).1
        = spaces ++ [⟨e.vendorName ++ " Bill".toList, ms⟩,
                     ⟨e.vendorName ++ " Bill".toList, ms⟩]) := by
  constructor
  · intro spaces e ms hm hlen
    simp [handleReceiptParsed, hm, hlen]
  · intro spaces e ms hm hlen
    simp [handleReceiptParsed, hm, hlen]

/-- Witness for `receipt_parsed_always_appends_space`: a two-member receipt
appended to the empty space list. -/
theorem receipt_parsed_always_appends_space_witness :
    (handleReceiptParsed []
        ⟨"x", "V".toList, "d", .fin 10, "Other", [], "personal",
          some ["You", "Priya"], none⟩).1
      = [] ++ [⟨"V".toList ++ " Bill".toList, ["You", "Priya"]⟩] :=
  receipt_parsed_always_appends_space.1 [] _ ["You", "Priya"] rfl (by decide)


/-- C1 counterexample: the raw parse with `participants = ["You"]` (not a
self-referential token, so it survives the filter) is accepted, and the
resulting shared expense has members `["You", "You"]`: the submitting user
appears twice, not exactly once. -/
theorem canonicalize_members_you_twice :
    (convertBackendExpenseToFrontend
        ⟨1, "t".toList, ⟨["You"], none, none, some [], .fin 10⟩,
          "2024-01-02T10:00:00"⟩).map
      (fun e => (e.type, e.members.getD [], (e.members.getD []).count "You"))
      = .ok ("shared", ["You", "You"], 2) := by
  rfl

/-- C1 amended: every accepted parse yields an expense whose `type` is
`"personal"` or `"shared"`; a shared result's members list is
`"You" :: cleanParticipants` — non-empty, headed by the submitting user, who
therefore appears at least once, and exactly once provided the clean
participant list does not itself contain `"You"` — and a personal result has
no members list. -/
theorem canonicalize_type_and_members (be : BackendExpense) (e : Expense)
    (h : convertBackendExpenseToFrontend be = .ok e) :
    (e.type = "personal" ∨ e.type = "shared") ∧
    (e.type = "shared" →
      e.members = some ("You" :: cleanParticipantsOf be.parsed_data)) ∧
    (e.type = "shared" → "You" ∉ cleanParticipantsOf be.parsed_data →
      (e.members.getD []).count "You" = 1) ∧
    (e.type = "personal" → e.members = none) := by
  simp only [convertBackendExpenseToFrontend] at h
  cases hli : be.parsed_data.line_items with
  | none => rw [hli] at h; simp at h
  | some items =>
    rw [hli] at h
    cases hs : isSharedOf be.parsed_data with
    | true =>
      rw [hs] at h
      simp only [if_true, Except.ok.injEq] at h
      subst h
      refine ⟨Or.inr rfl, fun _ => rfl, fun _ hnm => ?_, fun hp => ?_⟩
      · simp [List.count_cons, List.count_eq_zero_of_not_mem hnm]
      · exact absurd hp (by simp)
    | false =>
      rw [hs] at h
      simp only [Bool.false_eq_true, if_false, Except.ok.injEq] at h
      subst h
      exact ⟨Or.inl rfl, fun hp => absurd hp (by simp),
        fun hp => absurd hp (by simp), fun _ => rfl⟩

/-- Witness for `canonicalize_type_and_members`: the accepted parse of the
counterexample-free input with participants `["Rohit"]`. -/
theorem canonicalize_type_and_members_witness :
    let be : BackendExpense :=
      ⟨7, "t".toList, ⟨["Rohit"], none, none, some [], .fin 10⟩,
        "2024-03-04T08:00:00"⟩
    let e : Expense :=
      ⟨"backend-7", "Expense".toList, "2024-03-04", .fin 10, "Other", [],
        "shared", some ["You", "Rohit"],
        some ⟨["You", "Rohit"], "You"⟩⟩
    (e.type = "personal" ∨ e.type = "shared") ∧
    (e.type = "shared" →
      e.members = some ("You" :: cleanParticipantsOf be.parsed_data)) ∧
    (e.type = "shared" → "You" ∉ cleanParticipantsOf be.parsed_data →
      (e.members.getD []).count "You" = 1) ∧
    (e.type = "personal" → e.members = none) :=
  canonicalize_type_and_members _ _ rfl


/-- C2 counterexample: a parse with `line_items` present but
`total_amount = NaN` (not a finite number) is NOT rejected: the converter
returns an Expense carrying the non-finite total verbatim. -/
theorem canonicalize_accepts_nonfinite_total :
    (convertBackendExpenseToFrontend
        ⟨3, "t".toList, ⟨[], none, none, some [⟨"x".toList, 1, none, []⟩], .nan⟩,
          "2020-05-05T00:00:00"⟩).map
      (fun e => (e.totalAmount, e.totalAmount.isFinite))
      = .ok (.nan, false) := by
  rfl

/-- C2 amended: the converter fails (a thrown `TypeError`, modelled as
`Except.error`) exactly when the raw parse's `line_items` field is absent;
`total_amount` is never validated — any value, finite or not, is copied into
the returned Expense's `totalAmount`. -/
theorem canonicalize_error_iff_missing_line_items :
    (∀ be : BackendExpense,
      convertBackendExpenseToFrontend be = .error .typeError
        ↔ be.parsed_data.line_items = none) ∧
    (∀ (be : BackendExpense) (items : List BLineItem),
      be.parsed_data.line_items = some items →
      ∃ e, convertBackendExpenseToFrontend be = .ok e
        ∧ e.totalAmount = be.parsed_data.total_amount) := by
  constructor
  · intro be
    simp only [convertBackendExpenseToFrontend]
    cases hli : be.parsed_data.line_items with
    | none => simp
    | some items =>
      simp only [reduceCtorEq, iff_false]
      cases hs : isSharedOf be.parsed_data <;> simp
  · intro be items hli
    simp only [convertBackendExpenseToFrontend, hli]
    cases hs : isSharedOf be.parsed_data <;> simp

/-- Witness for `canonicalize_error_iff_missing_line_items`: its second
conjunct applied to a concrete parse with one line item. -/
theorem canonicalize_error_iff_missing_line_items_witness :
    ∃ e, convertBackendExpenseToFrontend
        ⟨4, "t".toList, ⟨[], none, none, some [⟨"x".toList, 2, none, []⟩], .fin 2⟩,
          "2020-05-05T00:00:00"⟩ = .ok e
      ∧ e.totalAmount = (ParsedData.mk [] none none
          (some [⟨"x".toList, 2, none, []⟩]) (.fin 2)).total_amount :=
  canonicalize_error_iff_missing_line_items.2 _ [⟨"x".toList, 2, none, []⟩] rfl

/-- C5: an explicitly supplied `is_shared` decides the sharing status of the
canonicalized expense; only an absent `is_shared` falls back to
`cleanParticipants.length > 0`. An explicit `false` yields a personal
expense even with non-empty clean participants, and
`clean_participants = ["Rohit","Priya"]` with no explicit flag yields a
shared expense with members `["You","Rohit","Priya"]`. -/
theorem is_shared_flag_priority :
    (∀ (be : BackendExpense) (b : Bool) (e : Expense),
      be.parsed_data.is_shared = some b →
      convertBackendExpenseToFrontend be = .ok e →
      e.type = if b then "shared" else "personal") ∧
    (∀ (be : BackendExpense) (e : Expense),
      be.parsed_data.is_shared = none →
      convertBackendExpenseToFrontend be = .ok e →
      e.type = if 0 < (cleanParticipantsOf be.parsed_data).length
        then "shared" else "personal") ∧
    ((convertBackendExpenseToFrontend
        ⟨5, "t".toList, ⟨["Rohit"], some ["Rohit", "Priya"], some false,
          some [], .fin 100⟩, "2024-01-02T10:00:00"⟩).map
      (fun e => (e.type, e.members)) = .ok ("personal", none)) ∧
    ((convertBackendExpenseToFrontend
        ⟨6, "t".toList, ⟨[], some ["Rohit", "Priya"], none,
          some [], .fin 100⟩, "2024-01-02T10:00:00"⟩).map
      (fun e => (e.type, e.members))
        = .ok ("shared", some ["You", "Rohit", "Priya"])) := by
  refine ⟨?_, ?_, by rfl, by rfl⟩
  · intro be b e hb h
    have hs : isSharedOf be.parsed_data = b := by
      simp [isSharedOf, hb]
    simp only [convertBackendExpenseToFrontend] at h
    cases hli : be.parsed_data.line_items with
    | none => rw [hli] at h; simp at h
    | some items =>
      rw [hli, hs] at h
      cases b with
      | true =>
        simp only [if_true, Except.ok.injEq] at h
        subst h; rfl
      | false =>
        simp only [Bool.false_eq_true, if_false, Except.ok.injEq] at h
        subst h; rfl
  · intro be e hn h
    simp only [convertBackendExpenseToFrontend] at h
    cases hli : be.parsed_data.line_items with
    | none => rw [hli] at h; simp at h
    | some items =>
      rw [hli] at h
      cases hs : isSharedOf be.parsed_data with
      | true =>
        rw [hs] at h
        simp only [if_true, Except.ok.injEq] at h
        subst h
        have hc : 0 < (cleanParticipantsOf be.parsed_data).length := by
          have h2 := hs
          simp only [isSharedOf, hn, decide_eq_true_eq] at h2
          exact h2
        rw [if_pos hc]
      | false =>
        rw [hs] at h
        simp only [Bool.false_eq_true, if_false, Except.ok.injEq] at h
        subst h
        have hc : ¬ 0 < (cleanParticipantsOf be.parsed_data).length := by
          have h2 := hs
          simp only [isSharedOf, hn, decide_eq_false_iff_not] at h2
          exact h2
        rw [if_neg hc]

/-- Witness for `is_shared_flag_priority`: the explicit-flag conjunct applied
to a concrete parse with `is_shared = false`. -/
theorem is_shared_flag_priority_witness :
    (Expense.mk "backend-5" "Expense".toList "2024-01-02" (.fin 100) "Other"
        [] "personal" none none).type
      = if false then "shared" else "personal" :=
  is_shared_flag_priority.1
    ⟨5, "t".toList, ⟨["Rohit"], some ["Rohit", "Priya"], some false,
      some [], .fin 100⟩, "2024-01-02T10:00:00"⟩ false _ rfl rfl


theorem primaryOf_cons (a b : BLineItem) (l : List BLineItem) :
    primaryOf a (b :: l) = primaryOf (if b.amount > a.amount then b else a) l := rfl

theorem primaryOf_mem (l : List BLineItem) (a : BLineItem) :
    primaryOf a l = a ∨ primaryOf a l ∈ l := by
  induction l generalizing a with
  | nil => exact Or.inl rfl
  | cons b l ih =>
    rw [primaryOf_cons]
    by_cases h : b.amount > a.amount
    · rw [if_pos h]
      rcases ih b with h2 | h2
      · exact Or.inr (by rw [h2]; exact List.mem_cons_self b l)
      · exact Or.inr (List.mem_cons_of_mem b h2)
    · rw [if_neg h]
      rcases ih a with h2 | h2
      · exact Or.inl h2
      · exact Or.inr (List.mem_cons_of_mem b h2)

theorem primaryOf_ge_init (l : List BLineItem) (a : BLineItem) :
    a.amount ≤ (primaryOf a l).amount := by
  induction l generalizing a with
  | nil => exact le_refl _
  | cons b l ih =>
    rw [primaryOf_cons]
    by_cases h : b.amount > a.amount
    · rw [if_pos h]
      exact le_of_lt (lt_of_lt_of_le h (ih b))
    · rw [if_neg h]
      exact ih a

theorem primaryOf_ge_mem (l : List BLineItem) (a : BLineItem) :
    ∀ x ∈ l, x.amount ≤ (primaryOf a l).amount := by
  induction l generalizing a with
  | nil => intro x hx; exact absurd hx (List.not_mem_nil x)
  | cons b l ih =>
    intro x hx
    rw [primaryOf_cons]
    rcases List.mem_cons.mp hx with rfl | hx
    · by_cases h : x.amount > a.amount
      · rw [if_pos h]; exact primaryOf_ge_init l x
      · rw [if_neg h]
        exact le_trans (not_lt.mp h) (primaryOf_ge_init l a)
    · by_cases h : b.amount > a.amount
      · rw [if_pos h]; exact ih b x hx
      · rw [if_neg h]; exact ih a x hx

theorem primaryOf_first_occurrence (l : List BLineItem) (a : BLineItem) :
    primaryOf a l = a ∨
    ∃ l₁ l₂, l = l₁ ++ (primaryOf a l) :: l₂ ∧
      a.amount < (primaryOf a l).amount ∧
      ∀ x ∈ l₁, x.amount < (primaryOf a l).amount := by
  induction l generalizing a with
  | nil => exact Or.inl rfl
  | cons b l ih =>
    rw [primaryOf_cons]
    by_cases h : b.amount > a.amount
    · rw [if_pos h]
      refine Or.inr ?_
      rcases ih b with h2 | ⟨m₁, m₂, hdec, hlt, hpre⟩
      · exact ⟨[], l, by rw [h2]; rfl, by rw [h2]; exact h, by simp⟩
      · refine ⟨b :: m₁, m₂, by rw [List.cons_append, ← hdec], lt_trans h hlt, ?_⟩
        intro x hx
        rcases List.mem_cons.mp hx with rfl | hx
        · exact hlt
        · exact hpre x hx
    · rw [if_neg h]
      rcases ih a with h2 | ⟨m₁, m₂, hdec, hlt, hpre⟩
      · exact Or.inl h2
      · refine Or.inr ⟨b :: m₁, m₂, by rw [List.cons_append, ← hdec],
          hlt, ?_⟩
        intro x hx
        rcases List.mem_cons.mp hx with rfl | hx
        · exact lt_of_le_of_lt (not_lt.mp h) hlt
        · exact hpre x hx

theorem tryVendorMatchers_eq_findSome (text : List Char)
    (ms : List (List Char → Option (List Char))) :
    tryVendorMatchers text ms = ms.findSome? (vendorHit text) := by
  induction ms with
  | nil => rfl
  | cons m ms ih =>
    rw [tryVendorMatchers, List.findSome?_cons]
    cases hsm : scanMatch m text with
    | none => simp only [vendorHit, hsm]; exact ih
    | some cap =>
      simp only [vendorHit, hsm]
      by_cases hc : 2 < (trimL cap).length ∧ (trimL cap).length < 50
      · rw [if_pos hc, if_pos hc]
      · rw [if_neg hc, if_neg hc]; exact ih

/-- C6: `extractVendor` tries its patterns in fixed priority order and the
first whose trimmed captured span has length strictly between 2 and 50 wins,
word-capitalized (expressed through `findSome?` over the ordered matcher
list); with no pattern hit it falls back to the description of the first
line item of maximal price — word-capitalized provided it is shorter than 30
characters — and otherwise returns `"Expense"`; being a total function it
always terminates with a string, and on
`"Yesterday I went to Big Bazaar with Priya"` it returns `"Big Bazaar"`. -/
theorem extract_vendor_priority_and_fallback :
    (∀ items, extractVendorName
        "Yesterday I went to Big Bazaar with Priya".toList items
      = "Big Bazaar".toList) ∧
    (∀ (text : List Char) (ms : List (List Char → Option (List Char))),
      tryVendorMatchers text ms = ms.findSome? (vendorHit text)) ∧
    (∀ (text : List Char) (items : List BLineItem) (v : List Char),
      vendorMatchers.findSome? (vendorHit text) = some v →
      extractVendorName text items = v) ∧
    (∀ text : List Char,
      vendorMatchers.findSome? (vendorHit text) = none →
      extractVendorName text [] = "Expense".toList) ∧
    (∀ (text : List Char) (first : BLineItem) (rest : List BLineItem),
      vendorMatchers.findSome? (vendorHit text) = none →
      (primaryOf first (first :: rest) ∈ first :: rest ∧
       (∀ x ∈ first :: rest,
          x.amount ≤ (primaryOf first (first :: rest)).amount) ∧
       (∃ l₁ l₂, first :: rest = l₁ ++ primaryOf first (first :: rest) :: l₂ ∧
          ∀ x ∈ l₁, x.amount < (primaryOf first (first :: rest)).amount)) ∧
      extractVendorName text (first :: rest)
        = (if (primaryOf first (first :: rest)).description.length < 30
           then capitalizeWords (primaryOf first (first :: rest)).description
           else "Expense".toList)) := by
  have hfind : ∀ (text : List Char) (ms : List (List Char → Option (List Char))),
      tryVendorMatchers text ms = ms.findSome? (vendorHit text) :=
    tryVendorMatchers_eq_findSome
  refine ⟨?_, hfind, ?_, ?_, ?_⟩
  · intro items
    have h : tryVendorMatchers
        "Yesterday I went to Big Bazaar with Priya".toList vendorMatchers
        = some "Big Bazaar".toList := by decide
    simp only [extractVendorName, h]
  · intro text items v hv
    simp only [extractVendorName, hfind, hv]
  · intro text hnone
    simp only [extractVendorName, hfind, hnone]
  · intro text first rest hnone
    constructor
    · refine ⟨?_, primaryOf_ge_mem _ _, ?_⟩
      · rcases primaryOf_mem (first :: rest) first with h | h
        · rw [h]; exact List.mem_cons_self first rest
        · exact h
      · rcases primaryOf_first_occurrence (first :: rest) first with h | ⟨l₁, l₂, hdec, _, hpre⟩
        · exact ⟨[], rest, by rw [h, List.nil_append], by simp⟩
        · exact ⟨l₁, l₂, hdec, hpre⟩
    · simp only [extractVendorName, hfind, hnone]

/-- Witness for `extract_vendor_priority_and_fallback`: the pattern-hit
conjunct applied at a concrete text whose second pattern captures
`"Starbucks"`. -/
theorem extract_vendor_priority_and_fallback_witness :
    extractVendorName "coffee at Starbucks with Rohit".toList []
      = "Starbucks".toList :=
  extract_vendor_priority_and_fallback.2.2.1
    "coffee at Starbucks with Rohit".toList [] "Starbucks".toList (by decide)


theorem sameMembers_iff_toFinset (a b : List String)
    (ha : a.Nodup) (hb : b.Nodup) :
    sameMembers a b = true ↔ a.toFinset = b.toFinset := by
  unfold sameMembers
  simp only [Bool.and_eq_true, List.all_eq_true, beq_iff_eq, List.contains,
    List.elem_iff]
  constructor
  · rintro ⟨hlen, hall⟩
    apply Finset.eq_of_subset_of_card_le
    · intro x hx
      rw [List.mem_toFinset] at hx ⊢
      exact hall x hx
    · rw [List.toFinset_card_of_nodup ha, List.toFinset_card_of_nodup hb, hlen]
  · intro h
    refine ⟨?_, ?_⟩
    · rw [← List.toFinset_card_of_nodup ha, ← List.toFinset_card_of_nodup hb, h]
    · intro x hx
      rw [← List.mem_toFinset, h, List.mem_toFinset] at hx
      exact hx

theorem group_aux (l : List Expense) :
    ∀ acc : List SharedSpace,
      (∀ sp ∈ acc, sp.members.Nodup) →
      (∀ e ∈ l, ∀ ms, e.members = some ms → ms.Nodup) →
      (∀ sp ∈ l.foldl groupStep acc, sp.members.Nodup) ∧
      memberSetFamily (l.foldl groupStep acc)
        = memberSetFamily acc
            ∪ ((sharedMemberLists l).map List.toFinset).toFinset ∧
      ((acc.map fun sp => sp.members.toFinset).Nodup →
        ((l.foldl groupStep acc).map fun sp => sp.members.toFinset).Nodup) := by
  induction l with
  | nil =>
    intro acc hacc _
    refine ⟨hacc, ?_, fun h => h⟩
    simp [sharedMemberLists, memberSetFamily]
  | cons e l ih =>
    intro acc hacc hl
    have hl' : ∀ e' ∈ l, ∀ ms, e'.members = some ms → ms.Nodup :=
      fun e' he' => hl e' (List.mem_cons_of_mem _ he')
    rw [List.foldl_cons]
    by_cases ht : e.type = "shared"
    case neg =>
      have hstep : groupStep acc e = acc := by simp [groupStep, ht]
      have hsml : sharedMemberLists (e :: l) = sharedMemberLists l := by
        simp [sharedMemberLists, List.filterMap_cons, ht]
      rw [hstep, hsml]
      exact ih acc hacc hl'
    case pos =>
      cases hm : e.members with
      | none =>
        have hstep : groupStep acc e = acc := by simp [groupStep, ht, hm]
        have hsml : sharedMemberLists (e :: l) = sharedMemberLists l := by
          simp [sharedMemberLists, List.filterMap_cons, ht, hm]
        rw [hstep, hsml]
        exact ih acc hacc hl'
      | some ms =>
        have hmsnd : ms.Nodup := hl e (List.mem_cons_self e l) ms hm
        have hsml : sharedMemberLists (e :: l) = ms :: sharedMemberLists l := by
          simp [sharedMemberLists, List.filterMap_cons, ht, hm]
        by_cases hf : (acc.any fun sp => sameMembers sp.members ms) = true
        · have hstep : groupStep acc e = acc := by
            simp [groupStep, ht, hm, hf]
          have hx : ms.toFinset ∈ memberSetFamily acc := by
            rw [List.any_eq_true] at hf
            rcases hf with ⟨sp, hsp, hsm⟩
            have hfe :=
              (sameMembers_iff_toFinset sp.members ms (hacc sp hsp) hmsnd).mp hsm
            rw [memberSetFamily, List.mem_toFinset, List.mem_map]
            exact ⟨sp, hsp, hfe⟩
          rw [hstep, hsml]
          obtain ⟨h1, h2, h3⟩ := ih acc hacc hl'
          refine ⟨h1, ?_, h3⟩
          rw [h2, List.map_cons, List.toFinset_cons, Finset.union_insert,
            Finset.insert_eq_self.mpr (Finset.mem_union_left _ hx)]
        · have hstep : groupStep acc e
              = acc ++ [⟨e.vendorName ++ " Group".toList, ms⟩] := by
            simp [groupStep, ht, hm, hf]
          have hacc' : ∀ sp ∈ acc ++ [(⟨e.vendorName ++ " Group".toList, ms⟩ : SharedSpace)],
              sp.members.Nodup := by
            intro sp hsp
            rcases List.mem_append.mp hsp with h | h
            · exact hacc sp h
            · rw [List.mem_singleton] at h
              rw [h]
              exact hmsnd
          have hfam' : memberSetFamily
                (acc ++ [(⟨e.vendorName ++ " Group".toList, ms⟩ : SharedSpace)])
              = memberSetFamily acc ∪ {ms.toFinset} := by
            rw [memberSetFamily, memberSetFamily, List.map_append,
              List.toFinset_append]
            rfl
          have hnotin : ms.toFinset ∉ memberSetFamily acc := by
            intro hmem
            rw [memberSetFamily, List.mem_toFinset, List.mem_map] at hmem
            rcases hmem with ⟨sp, hsp, hspf⟩
            have hsm : sameMembers sp.members ms = true :=
              (sameMembers_iff_toFinset sp.members ms (hacc sp hsp) hmsnd).mpr hspf
            exact hf (List.any_eq_true.mpr ⟨sp, hsp, hsm⟩)
          rw [hstep, hsml]
          obtain ⟨h1, h2, h3⟩ := ih _ hacc' hl'
          refine ⟨h1, ?_, ?_⟩
          · rw [h2, hfam', List.map_cons, List.toFinset_cons,
              Finset.union_assoc, Finset.insert_eq]
          · intro hnd
            apply h3
            rw [List.map_append, List.nodup_append]
            refine ⟨hnd, List.nodup_singleton _, ?_⟩
            intro x hx hx'
            rw [List.map_singleton, List.mem_singleton] at hx'
            apply hnotin
            rw [hx'] at hx
            rw [memberSetFamily, List.mem_toFinset]
            exact hx

/-- C9 counterexample: with duplicate member entries the `sameMembers` test
is asymmetric (`space ⊆ expense` plus equal lengths), so grouping is NOT
insensitive to input order: the two-expense collection with members
`["You","You"]` and `["You","Priya"]` yields one space in one order but two
in the swapped order, and the two produced families of member sets differ
(no space of the first run contains `"Priya"`). -/
theorem group_spaces_order_sensitive :
    ([(⟨"1", "A".toList, "d", .fin 1, "Other", [], "shared",
        some ["You", "You"], none⟩ : Expense),
      ⟨"2", "B".toList, "d", .fin 1, "Other", [], "shared",
        some ["You", "Priya"], none⟩].Perm
     [⟨"2", "B".toList, "d", .fin 1, "Other", [], "shared",
        some ["You", "Priya"], none⟩,
      ⟨"1", "A".toList, "d", .fin 1, "Other", [], "shared",
        some ["You", "You"], none⟩]) ∧
    (groupSharedSpaces
        [⟨"1", "A".toList, "d", .fin 1, "Other", [], "shared",
           some ["You", "You"], none⟩,
         ⟨"2", "B".toList, "d", .fin 1, "Other", [], "shared",
           some ["You", "Priya"], none⟩]).map SharedSpace.members
      = [["You", "You"]] ∧
    (groupSharedSpaces
        [⟨"2", "B".toList, "d", .fin 1, "Other", [], "shared",
           some ["You", "Priya"], none⟩,
         ⟨"1", "A".toList, "d", .fin 1, "Other", [], "shared",
           some ["You", "You"], none⟩]).map SharedSpace.members
      = [["You", "Priya"], ["You", "You"]] ∧
    (groupSharedSpaces
        [⟨"1", "A".toList, "d", .fin 1, "Other", [], "shared",
           some ["You", "You"], none⟩,
         ⟨"2", "B".toList, "d", .fin 1, "Other", [], "shared",
           some ["You", "Priya"], none⟩]).all
        (fun sp => !sp.members.contains "Priya") = true := by
  exact ⟨List.Perm.swap _ _ _, by decide, by decide, by decide⟩

/-- C9 amended: provided every shared expense's members list is
duplicate-free, `groupSharedSpaces` is a function of the expense collection
insensitive to input order: its family of member sets (compared
order-independently) equals the set of member sets of the shared expenses,
is therefore stable under permutation and recomputation, and each member set
appears at most once among the produced spaces; two shared expenses with
members `["You","Priya","Rohit"]` in either order map to one space and
`["You","Amit"]` to a second. -/
theorem group_spaces_perm_invariant_nodup :
    (∀ l : List Expense,
      (∀ e ∈ l, ∀ ms, e.members = some ms → ms.Nodup) →
      memberSetFamily (groupSharedSpaces l)
        = ((sharedMemberLists l).map List.toFinset).toFinset ∧
      ((groupSharedSpaces l).map fun sp => sp.members.toFinset).Nodup) ∧
    (∀ l₁ l₂ : List Expense, l₁.Perm l₂ →
      (∀ e ∈ l₁, ∀ ms, e.members = some ms → ms.Nodup) →
      memberSetFamily (groupSharedSpaces l₁)
        = memberSetFamily (groupSharedSpaces l₂)) ∧
    (groupSharedSpaces
        [⟨"1", "A".toList, "d", .fin 1, "Other", [], "shared",
           some ["You", "Priya", "Rohit"], none⟩,
         ⟨"2", "B".toList, "d", .fin 1, "Other", [], "shared",
           some ["Rohit", "You", "Priya"], none⟩,
         ⟨"3", "C".toList, "d", .fin 1, "Other", [], "shared",
           some ["You", "Amit"], none⟩]).map SharedSpace.members
      = [["You", "Priya", "Rohit"], ["You", "Amit"]] := by
  have hmain : ∀ l : List Expense,
      (∀ e ∈ l, ∀ ms, e.members = some ms → ms.Nodup) →
      memberSetFamily (groupSharedSpaces l)
        = ((sharedMemberLists l).map List.toFinset).toFinset ∧
      ((groupSharedSpaces l).map fun sp => sp.members.toFinset).Nodup := by
    intro l hnd
    obtain ⟨h1, h2, h3⟩ := group_aux l [] (by simp) hnd
    constructor
    · rw [groupSharedSpaces, h2]
      rw [show memberSetFamily [] = ∅ from rfl, Finset.empty_union]
    · exact h3 (by simp)
  refine ⟨hmain, ?_, by decide⟩
  intro l₁ l₂ hperm hnd
  have hnd₂ : ∀ e ∈ l₂, ∀ ms, e.members = some ms → ms.Nodup :=
    fun e he => hnd e (hperm.mem_iff.mpr he)
  rw [(hmain l₁ hnd).1, (hmain l₂ hnd₂).1]
  apply List.toFinset_eq_of_perm
  exact (hperm.filterMap _).map _

/-- Witness for `group_spaces_perm_invariant_nodup`: permutation invariance
applied to a concrete two-expense collection and its swap. -/
theorem group_spaces_perm_invariant_nodup_witness :
    memberSetFamily (groupSharedSpaces
        [⟨"1", "A".toList, "d", .fin 1, "Other", [], "shared",
           some ["You", "Priya"], none⟩,
         ⟨"2", "B".toList, "d", .fin 1, "Other", [], "shared",
           some ["You", "Amit"], none⟩])
      = memberSetFamily (groupSharedSpaces
        [⟨"2", "B".toList, "d", .fin 1, "Other", [], "shared",
           some ["You", "Amit"], none⟩,
         ⟨"1", "A".toList, "d", .fin 1, "Other", [], "shared",
           some ["You", "Priya"], none⟩]) :=
  group_spaces_perm_invariant_nodup.2.1 _ _ (List.Perm.swap _ _ _) (by decide)


end Raseed
